import Mathlib

/-!
Shallow embedding of the 12-bit LZW codec in `src/lzw.rs` (vaelen/rust-compress).

Modelling conventions:
* Bytes (`u8`) and codes (`u16`) are `Nat` carrying their value; `u8` arithmetic
  that can overflow is truncated explicitly with `% 256`, bit operations are the
  `Nat` bit operations (`<<<`, `>>>`, `|||`, `&&&`).
* `u16::to_le_bytes v = [v % 256, v / 256 % 256]` and
  `u16::from_le_bytes [lo, hi] = lo + 256 * hi`.
* The encoder's `HashMap<Vec<u8>, u16>` is modelled as an association list with
  most-recent insertion first; every insertion in the program is of a key that
  was just looked up and found absent, so list length and lookup agree with the
  hash-map semantics.  The decoder's `Vec<Vec<u8>>` is a `List (List Nat)` and
  `push` is appending at the end.
* Readers and writers are pure: the input is a `List Nat` of bytes, output is an
  accumulated `List Nat`; `write` returns the number of bytes written.
* A Rust panic (out-of-range `Vec` index in `Decompressor::decode`) is modelled
  by `Option`, the panic being `none`.
* `compression_ratio` computes `(c as f64 / u as f64) * 100.0` and the caller
  truncates it with `as usize`.  This is modelled as the exact truncation
  `c * 100 / u` (natural-number division); see `compressionRatioTrunc`.
-/

set_option maxRecDepth 100000

namespace LZW

/-- Constant `MAX_DICT_SIZE` from `lzw.rs`. -/
def MAX_DICT_SIZE : Nat := 4090

/-- Control code `NOOP` from `lzw.rs`. -/
def NOOP : Nat := 4091

/-- Control code `FLUSH_DICTIONARY` from `lzw.rs`. -/
def FLUSH_DICTIONARY : Nat := 4093

/-- Control code `EOF` from `lzw.rs`. -/
def EOF_CODE : Nat := 4094

/-- Control code `EOS` from `lzw.rs`. -/
def EOS_CODE : Nat := 4095

/-- Association-list lookup, modelling `HashMap::get` on the encoder dictionary. -/
def dictGet : List (List Nat × Nat) → List Nat → Option Nat
  | [], _ => none
  | (k, v) :: rest, key => if key = k then some v else dictGet rest key

/-- Association-list insert, modelling `HashMap::insert` (all inserted keys are fresh). -/
def dictInsert (d : List (List Nat × Nat)) (k : List Nat) (v : Nat) : List (List Nat × Nat) :=
  (k, v) :: d

/-- The encoder dictionary produced by `Compressor::flush_dictionary`: the 256
single-byte phrases, `vec![n] ↦ n` for `n = 0..=255`. -/
def initEncDict : List (List Nat × Nat) := (List.range 256).map fun n => ([n], n)

/-- The decoder dictionary produced by `Decompressor::flush_dictionary`: phrases
`[0], [1], …, [255]` pushed in order. -/
def initDecDict : List (List Nat) := (List.range 256).map fun n => [n]

/-- State of `struct Compressor` (the `debug`/`verbose` flags only control
logging and are omitted). -/
structure Compressor where
  dict : List (List Nat × Nat)
  key : List Nat
  value : Option Nat
  write_state : Option Nat
deriving DecidableEq

/-- State produced by `Compressor::new()`: empty buffers, dictionary seeded by `flush_dictionary`. -/
def Compressor.init : Compressor :=
  { dict := initEncDict, key := [], value := none, write_state := none }

/-- The three bytes written by `Compressor::encode` when a buffered code `first`
is joined by `value`: `[f[0], (f[1] << 4) | (s[0] >> 4), (s[0] << 4) | s[1]]`
with `f = first.to_le_bytes()`, `s = value.to_le_bytes()` (`u8` shifts truncate). -/
def encodeOut (first value : Nat) : List Nat :=
  let f0 := first % 256
  let f1 := first / 256 % 256
  let s0 := value % 256
  let s1 := value / 256 % 256
  [f0, ((f1 <<< 4) % 256) ||| (s0 >>> 4), ((s0 <<< 4) % 256) ||| s1]

/-- Function `Compressor::encode`: buffer the code if the packer is empty, otherwise emit
the 3-byte group for the buffered pair. Returns the new state and emitted bytes. -/
def encode (c : Compressor) (value : Nat) : Compressor × List Nat :=
  match c.write_state with
  | none => ({ c with write_state := some value }, [])
  | some first => ({ c with write_state := none }, encodeOut first value)

/-- Function `Compressor::flush`: pad a half-written group with `NOOP`. -/
def flushPacker (c : Compressor) : Compressor × List Nat :=
  match c.write_state with
  | some _ => encode c NOOP
  | none => (c, [])

/-- Models `compression_ratio(u, c) as usize` from `lzw.rs`: the Rust function
returns `(c as f64 / u as f64) * 100.0` and the caller truncates toward zero
with `as usize`.  Modelled as the exact truncated percentage `c * 100 / u`
(which agrees with the `f64` computation whenever the latter is exact; the
compressor's flush test only ever compares this value against 200, and the
encoder keeps `c * 2 ≤ u * 3` between flushes, far below that threshold). -/
def compressionRatioTrunc (bytes_uncompressed bytes_compressed : Nat) : Nat :=
  bytes_compressed * 100 / bytes_uncompressed

/-- The per-byte match/miss part of the loop body of `Compressor::compress`:
push `b` onto `key`; on a hit remember the code in `value`; on a miss emit the
pending `value` (if any) and the literal `b`, admit `key` when
`dict.len() <= MAX_DICT_SIZE`, and clear `key`.  Returns the state and the
bytes emitted. -/
def missOrMatch (c : Compressor) (b : Nat) : Compressor × List Nat :=
  let key := c.key ++ [b]
  match dictGet c.dict key with
  | some i => ({ c with key := key, value := some i }, [])
  | none =>
    let s₁ :=
      match c.value with
      | some last_value =>
        let e := encode { c with key := key } last_value
        ({ e.1 with value := none }, e.2)
      | none => ({ c with key := key }, ([] : List Nat))
    let s₂ := encode s₁.1 b
    let c₃ :=
      if s₂.1.dict.length ≤ MAX_DICT_SIZE then
        { s₂.1 with dict := dictInsert s₂.1.dict key s₂.1.dict.length }
      else s₂.1
    ({ c₃ with key := [] }, s₁.2 ++ s₂.2)

/-- The ratio-driven flush check at the end of the loop body of
`Compressor::compress`: if `dict.len() > 4000` and the truncated percentage
`(w / r) * 100` exceeds 200 (both measured since the previous flush), emit
`FLUSH_DICTIONARY`, flush the packer and reset the dictionary and both
counters.  Returns the state, the bytes emitted, and the new
`bytes_read_before_flush` / `bytes_written_before_flush` values. -/
def flushPhase (c : Compressor) (r w r0 w0 : Nat) : Compressor × List Nat × Nat × Nat :=
  if c.dict.length > 4000 ∧ compressionRatioTrunc (r - r0) (w - w0) > 200 then
    let e₁ := encode c FLUSH_DICTIONARY
    let e₂ := flushPacker e₁.1
    ({ e₂.1 with dict := initEncDict }, e₁.2 ++ e₂.2, r, w + e₁.2.length + e₂.2.length)
  else (c, [], r0, w0)

/-- One full iteration of the loop in `Compressor::compress` for the input byte
`b`: `bytes_read += 1`, the match/miss step, then the flush check.  Arguments
and results carry `(state, emitted bytes, bytes_read, bytes_written,
bytes_read_before_flush, bytes_written_before_flush)`. -/
def compressStep (c : Compressor) (b : Nat) (r w r0 w0 : Nat) :
    Compressor × List Nat × Nat × Nat × Nat × Nat :=
  let m := missOrMatch c b
  let f := flushPhase m.1 (r + 1) (w + m.2.length) r0 w0
  (f.1, m.2 ++ f.2.1, r + 1, w + m.2.length + f.2.1.length, f.2.2.1, f.2.2.2)

/-- The loop of `Compressor::compress` over the remaining input bytes. -/
def compressLoop (c : Compressor) (input : List Nat) (r w r0 w0 : Nat) :
    Compressor × List Nat × Nat × Nat × Nat × Nat :=
  match input with
  | [] => (c, [], r, w, r0, w0)
  | b :: rest =>
    let s := compressStep c b r w r0 w0
    let t := compressLoop s.1 rest s.2.2.1 s.2.2.2.1 s.2.2.2.2.1 s.2.2.2.2.2
    (t.1, s.2.1 ++ t.2.1, t.2.2.1, t.2.2.2.1, t.2.2.2.2.1, t.2.2.2.2.2)

/-- The tail of `Compressor::compress` after the loop: emit the pending `value`
if set, then flush the packer. -/
def compressFinish (c : Compressor) : Compressor × List Nat :=
  let s₁ :=
    match c.value with
    | some last_value => encode c last_value
    | none => (c, ([] : List Nat))
  let s₂ := flushPacker s₁.1
  (s₂.1, s₁.2 ++ s₂.2)

/-- Function `Compressor::end_of_file`: flush, emit `EOF` twice, flush. -/
def endOfFile (c : Compressor) : Compressor × List Nat :=
  let s₁ := flushPacker c
  let s₂ := encode s₁.1 EOF_CODE
  let s₃ := encode s₂.1 EOF_CODE
  let s₄ := flushPacker s₃.1
  (s₄.1, s₁.2 ++ s₂.2 ++ s₃.2 ++ s₄.2)

/-- The public entry point `compress(input, output, debug)`: run
`Compressor::compress` from a fresh compressor, then `end_of_file`.  Returns
`(output bytes, bytes_read, bytes_written)`. -/
def lzwCompress (input : List Nat) : List Nat × Nat × Nat :=
  let l := compressLoop Compressor.init input 0 0 0 0
  let f := compressFinish l.1
  let e := endOfFile f.1
  (l.2.1 ++ f.2 ++ e.2, l.2.2.1, l.2.2.2.1 + f.2.length + e.2.length)

/-- The `enum ReadState` of the decompressor. -/
inductive ReadState where
  | Empty : ReadState
  | One : Nat → ReadState
  | Two : Nat → Nat → ReadState
  | EOF : ReadState
  | EOS : ReadState
deriving DecidableEq

/-- State of `struct Decompressor` (logging flags omitted). -/
structure Decompressor where
  dict : List (List Nat)
  key : List Nat
  read_state : ReadState
deriving DecidableEq

/-- State produced by `Decompressor::new()`. -/
def Decompressor.init : Decompressor :=
  { dict := initDecDict, key := [], read_state := ReadState.Empty }

/-- Function `Decompressor::flush_dictionary`: reset the dictionary to the 256 literal
phrases.  Note that it does NOT clear `key`. -/
def flushDecDict (d : Decompressor) : Decompressor :=
  { d with dict := initDecDict }

/-- Function `Decompressor::decode`: look up the phrase for `value` (a Rust panic on an
out-of-range index is `none`), write it, extend `key` with it, and when a
literal follows an extended sequence (`key.len() > 1 && value < 256`) push
`key` as a new dictionary entry and clear it.  Returns the new state and the
bytes written. -/
def decode (d : Decompressor) (value : Nat) : Option (Decompressor × List Nat) :=
  match d.dict[value]? with
  | none => none
  | some b =>
    let key := d.key ++ b
    if key.length > 1 ∧ value < 256 then
      some ({ d with dict := d.dict ++ [key], key := [] }, b)
    else
      some ({ d with key := key }, b)

/-- The first 12-bit code reconstructed from a 3-byte group `(x, y, _)`:
`u16::from_le_bytes([b[0], b[1] >> 4])`. -/
def unpackFirst (x y : Nat) : Nat := x + 256 * (y >>> 4)

/-- The second 12-bit code reconstructed from a 3-byte group `(_, y, z)`:
`u16::from_le_bytes([(b[1] << 4) | b[2] >> 4, b[2] & 15])` (`u8` shift truncates). -/
def unpackSecond (y z : Nat) : Nat := (((y <<< 4) % 256) ||| (z >>> 4)) + 256 * (z &&& 15)

/-- The loop of `Decompressor::decompress` over the remaining input bytes,
carrying `(bytes_read, bytes_written, accumulated output)`.  Mirrors the Rust
control flow exactly, including the `first == FLUSH_DICTIONARY` re-test in the
second slot and the `break` on a terminal `read_state`.  `none` is a panic. -/
def decompressLoop (d : Decompressor) (input : List Nat) (r w : Nat) (out : List Nat) :
    Option (Decompressor × List Nat × Nat × Nat) :=
  match input with
  | [] => some (d, out, r, w)
  | b :: rest =>
    match d.read_state with
    | ReadState.Empty => decompressLoop { d with read_state := ReadState.One b } rest (r + 1) w out
    | ReadState.One f => decompressLoop { d with read_state := ReadState.Two f b } rest (r + 1) w out
    | ReadState.EOF => some ({ d with read_state := ReadState.EOF }, out, r + 1, w)
    | ReadState.EOS => some ({ d with read_state := ReadState.EOS }, out, r + 1, w)
    | ReadState.Two f s =>
      let first := unpackFirst f s
      let second := unpackSecond s b
      if first = NOOP then
        decompressLoop { d with read_state := ReadState.Empty } rest (r + 1) w out
      else if first = EOF_CODE then
        some ({ d with read_state := ReadState.EOF }, out, r + 1, w)
      else if first = EOS_CODE then
        some ({ d with read_state := ReadState.EOS }, out, r + 1, w)
      else
        match (if first = FLUSH_DICTIONARY then some (flushDecDict d, ([] : List Nat))
               else decode d first) with
        | none => none
        | some (d₁, o₁) =>
          if second = NOOP then
            decompressLoop { d₁ with read_state := ReadState.Empty } rest (r + 1)
              (w + o₁.length) (out ++ o₁)
          else if second = EOF_CODE then
            some ({ d₁ with read_state := ReadState.EOF }, out ++ o₁, r + 1, w + o₁.length)
          else if second = EOS_CODE then
            some ({ d₁ with read_state := ReadState.EOS }, out ++ o₁, r + 1, w + o₁.length)
          else
            match (if first = FLUSH_DICTIONARY then some (flushDecDict d₁, ([] : List Nat))
                   else decode d₁ second) with
            | none => none
            | some (d₂, o₂) =>
              decompressLoop { d₂ with read_state := ReadState.Empty } rest (r + 1)
                (w + o₁.length + o₂.length) (out ++ o₁ ++ o₂)

/-- The public entry point `decompress(input, output, debug)`: run a fresh
decompressor over the input.  Returns `(output bytes, bytes_read,
bytes_written)`; `none` is a panic. -/
def lzwDecompress (input : List Nat) : Option (List Nat × Nat × Nat) :=
  match decompressLoop Decompressor.init input 0 0 [] with
  | none => none
  | some (_, out, r, w) => some (out, r, w)


/-! ### Specification-side definitions used by the proofs -/

/-- Synchronization between the encoder's phrase→code map `e` and the decoder's
code-indexed phrase table `dd`:  all 256 literals are present on both sides,
every encoder binding is mirrored by the decoder at the same code, codes are
below the encoder dictionary size, phrases are nonempty, and the two sizes
agree until the encoder is full (4091 entries), after which the decoder's table
may be longer (its surplus entries are never referenced). -/
def DictSync (e : List (List Nat × Nat)) (dd : List (List Nat)) : Prop :=
  (∀ n, n < 256 → dictGet e [n] = some n) ∧
  (∀ n, n < 256 → dd[n]? = some [n]) ∧
  (∀ p c, dictGet e p = some c → dd[c]? = some p) ∧
  (∀ p c, dictGet e p = some c → p ≠ []) ∧
  (∀ p c, dictGet e p = some c → c < e.length) ∧
  (dd.length = e.length ∨ (e.length = 4091 ∧ 4091 ≤ dd.length)) ∧
  e.length ≤ 4091

/-- Relational invariant tying a mid-run compressor state to the decompressor
run over the bytes emitted so far: the packer is group-aligned, `key`/`value`
agree with the dictionary, and there is a decoder state (dictionary `ddict`,
output `decOut`, counters) that the fresh decoder reaches after exactly the
emitted bytes, whose output plus the pending `key` is the consumed input, with
synchronized dictionaries. -/
def Inv (c : Compressor) (consumed out : List Nat) : Prop :=
  c.write_state = none ∧
  ((c.key = [] ∧ c.value = none) ∨
    (c.key ≠ [] ∧ ∃ cv, c.value = some cv ∧ dictGet c.dict c.key = some cv)) ∧
  ∃ ddict decOut rD wD,
    (∀ future, decompressLoop Decompressor.init (out ++ future) 0 0 [] =
      decompressLoop ⟨ddict, [], ReadState.Empty⟩ future rD wD decOut) ∧
    decOut ++ c.key = consumed ∧
    DictSync c.dict ddict

/-- Counter invariant: the before-flush marks trail the live counters, they
coincide right after a flush, and the flush condition evaluated at the current
state is false (it was either just tested false or just reset). -/
def CInv (c : Compressor) (r w r0 w0 : Nat) : Prop :=
  r0 ≤ r ∧ w0 ≤ w ∧ (r = r0 → w = w0) ∧
  ¬(c.dict.length > 4000 ∧ compressionRatioTrunc (r - r0) (w - w0) > 200)

/-- Entry bound for the encoder dictionary: no code above 4090, at most 4091
entries. -/
def EncBound (c : Compressor) : Prop :=
  (∀ e ∈ c.dict, e.2 ≤ 4090) ∧ c.dict.length ≤ 4091

/-- A compressor state whose dictionary holds exactly 4091 entries (the full
state), used to witness the no-further-admission half of C3. -/
def fullCompressor : Compressor :=
  { dict := List.replicate 3835 ([0, 1], 300) ++ initEncDict, key := [], value := none,
    write_state := none }

/-- The j-th 2-byte pair of the dictionary-filling input: `[j / 256, j % 256]`. -/
def pairKey (j : Nat) : List Nat := [j / 256, j % 256]

/-- Dictionary-filling input: the first n pairs, 2n bytes in total.  The pairs
are pairwise distinct, so every second byte misses and admits a fresh entry. -/
def badInput (n : Nat) : List Nat := (List.range n).flatMap pairKey

/-- The encoder dictionary after consuming `badInput n`: the literals plus the
n pairs, the j-th pair holding code 256 + j. -/
def pairsDict : Nat → List (List Nat × Nat)
  | 0 => initEncDict
  | n + 1 => (pairKey n, 256 + n) :: pairsDict n

end LZW

namespace LZW

/-! ### Bit-arithmetic helpers -/

theorem lor_mul16 : ∀ a < 256, ∀ b < 16, (a * 16) ||| b = a * 16 + b := by decide

theorem lor_mul256 : ∀ a < 16, ∀ b < 256, (a * 256) ||| b = a * 256 + b := by decide

theorem and_fifteen : ∀ z < 256, z &&& 15 = z % 16 := by decide

/-- Normal form of the 3-byte group emitted for a buffered pair of 12-bit codes. -/
theorem encodeOut_eq (a b : Nat) (ha : a < 4096) (hb : b < 4096) :
    encodeOut a b = [a % 256, a / 256 * 16 + b % 256 / 16, b % 16 * 16 + b / 256] := by
  have h₁ : a / 256 % 256 = a / 256 := by omega
  have h₂ : b / 256 % 256 = b / 256 := by omega
  simp only [encodeOut, Nat.shiftLeft_eq, Nat.shiftRight_eq_div_pow, h₁, h₂]
  norm_num
  have h₃ : a / 256 * 16 % 256 = a / 256 * 16 := by omega
  have h₄ : b * 16 % 256 = b % 16 * 16 := by omega
  rw [h₃, h₄, lor_mul16 (a / 256) (by omega) (b % 256 / 16) (by omega),
    lor_mul16 (b % 16) (by omega) (b / 256) (by omega)]
  exact ⟨rfl, rfl⟩

/-- Unpacking the first slot of a packed group recovers the first code. -/
theorem unpackFirst_norm (a b : Nat) (ha : a < 4096) (hb : b < 4096) :
    unpackFirst (a % 256) (a / 256 * 16 + b % 256 / 16) = a := by
  simp only [unpackFirst, Nat.shiftRight_eq_div_pow]
  norm_num
  omega

/-- Unpacking the second slot of a packed group recovers the second code. -/
theorem unpackSecond_norm (a b : Nat) (ha : a < 4096) (hb : b < 4096) :
    unpackSecond (a / 256 * 16 + b % 256 / 16) (b % 16 * 16 + b / 256) = b := by
  simp only [unpackSecond, Nat.shiftLeft_eq, Nat.shiftRight_eq_div_pow]
  norm_num
  have h₁ : (a / 256 * 16 + b % 256 / 16) * 16 % 256 = b % 256 / 16 * 16 := by omega
  have h₂ : (b % 16 * 16 + b / 256) / 16 = b % 16 := by omega
  have h₃ : (b % 16 * 16 + b / 256) &&& 15 = b / 256 := by
    rw [and_fifteen _ (by omega)]; omega
  rw [h₁, h₂, h₃, lor_mul16 (b % 256 / 16) (by omega) (b % 16) (by omega)]
  omega

end LZW

namespace LZW

/-! ### Claim C8, C5, C4, C2, C6 -/

/-- C8: `compress` applied to ten space characters (byte 0x20 repeated ten
times) produces exactly the 15 output bytes
`[32, 2, 0, 0, 18, 0, 1, 18, 0, 32, 15, 191, 254, 255, 239]`. -/
theorem c8_compress_ten_spaces :
    (lzwCompress (List.replicate 10 32)).1 =
      [32, 2, 0, 0, 18, 0, 1, 18, 0, 32, 15, 191, 254, 255, 239] := by rfl

/-- C5: packing any two 12-bit codes with the encoder's rule (`encodeOut`) and
unpacking the resulting three bytes with the decoder's rule
(`unpackFirst`/`unpackSecond`) recovers exactly the two codes. -/
theorem c5_pack_unpack (A B : Nat) (hA : A < 4096) (hB : B < 4096) :
    unpackFirst ((encodeOut A B).getD 0 0) ((encodeOut A B).getD 1 0) = A ∧
    unpackSecond ((encodeOut A B).getD 1 0) ((encodeOut A B).getD 2 0) = B := by
  rw [encodeOut_eq A B hA hB]
  simp only [List.getD_cons_zero, List.getD_cons_succ]
  exact ⟨unpackFirst_norm A B hA hB, unpackSecond_norm A B hA hB⟩

/-- Witness for C5 at the concrete pair (300, 4095). -/
theorem c5_pack_unpack_witness :
    300 < 4096 ∧ 4095 < 4096 ∧
      (unpackFirst ((encodeOut 300 4095).getD 0 0) ((encodeOut 300 4095).getD 1 0) = 300 ∧
        unpackSecond ((encodeOut 300 4095).getD 1 0) ((encodeOut 300 4095).getD 2 0) = 4095) :=
  ⟨by decide, by decide, c5_pack_unpack 300 4095 (by decide) (by decide)⟩

/-- C4 is false as stated: for the 3-byte group (X, Y, Z) = (0, 0, 1) the
decoder reconstructs the second code as 256, while the claimed formula
`((Y & 0x0F) << 8) | Z` gives 1. -/
theorem c4_counterexample : unpackSecond 0 1 ≠ ((0 &&& 15) <<< 8) ||| 1 := by decide

/-- C4 amended: the first reconstructed code is `X | ((Y >> 4) << 8)` exactly as
claimed, but the second is `((Z & 0x0F) << 8) | ((Y & 0x0F) << 4) | (Z >> 4)`,
not `((Y & 0x0F) << 8) | Z`. -/
theorem c4_amended (x y z : Nat) (hx : x < 256) (hy : y < 256) (hz : z < 256) :
    unpackFirst x y = x ||| ((y >>> 4) <<< 8) ∧
    unpackSecond y z = ((z &&& 15) <<< 8) ||| ((y &&& 15) <<< 4) ||| (z >>> 4) := by
  constructor
  · simp only [unpackFirst, Nat.shiftRight_eq_div_pow, Nat.shiftLeft_eq]
    norm_num
    rw [Nat.lor_comm, lor_mul256 (y / 16) (by omega) x hx]
    omega
  · simp only [unpackSecond, Nat.shiftRight_eq_div_pow, Nat.shiftLeft_eq,
      and_fifteen y hy, and_fifteen z hz]
    norm_num
    have h₁ : y * 16 % 256 = y % 16 * 16 := by omega
    rw [h₁, lor_mul16 (y % 16) (by omega) (z / 16) (by omega),
      lor_mul256 (z % 16) (by omega) (y % 16 * 16) (by omega)]
    have h₂ : z % 16 * 256 + y % 16 * 16 = (z % 16 * 16 + y % 16) * 16 := by ring
    rw [h₂, lor_mul16 (z % 16 * 16 + y % 16) (by omega) (z / 16) (by omega)]
    omega

/-- Witness for the amended C4 at the concrete group (1, 2, 3). -/
theorem c4_amended_witness :
    1 < 256 ∧ 2 < 256 ∧ 3 < 256 ∧
      (unpackFirst 1 2 = 1 ||| ((2 >>> 4) <<< 8) ∧
        unpackSecond 2 3 = ((3 &&& 15) <<< 8) ||| ((2 &&& 15) <<< 4) ||| (3 >>> 4)) :=
  ⟨by decide, by decide, by decide, c4_amended 1 2 3 (by decide) (by decide) (by decide)⟩

/-- C2 evidence (code bug): the group [0, 15, 223] carries code 0 in its first
slot and FLUSH_DICTIONARY in its second slot; the decoder re-tests `first`
instead of `second` and calls `decode(4093)`, which indexes `dict[4093]` out of
range — a panic (modelled `none`) — instead of resetting the dictionary. -/
theorem c2_flush_in_second_slot_panics :
    unpackSecond 15 223 = FLUSH_DICTIONARY ∧ lzwDecompress [0, 15, 223] = none :=
  ⟨by decide, by rfl⟩

/-- C6 is false as stated: the group [44, 16, 0] carries first code 300, which
is not a control code and is ≥ the 256-entry initial dictionary; decompressing
panics with an out-of-range index (modelled `none`) — the program has no
CorruptStream error value at all, so it cannot fail with one. -/
theorem c6_counterexample :
    unpackFirst 44 16 = 300 ∧ lzwDecompress [44, 16, 0] = none :=
  ⟨by decide, by rfl⟩

/-- C6 amended: when the decoder receives a code that is at least the current
dictionary length, `decode` hits an out-of-range `Vec` index — a Rust panic,
modelled as `none`; no distinct `CorruptStream` error value exists or is
produced. -/
theorem c6_amended_decode_panics (d : Decompressor) (v : Nat) (h : d.dict.length ≤ v) :
    decode d v = none := by
  unfold decode
  rw [List.getElem?_eq_none h]

/-- Witness for the amended C6: the fresh decoder has 256 entries and code 300
panics. -/
theorem c6_amended_witness :
    Decompressor.init.dict.length ≤ 300 ∧ decode Decompressor.init 300 = none :=
  ⟨by decide, c6_amended_decode_panics Decompressor.init 300 (by decide)⟩

end LZW

namespace LZW

/-! ### Control-code numerals -/

theorem NOOP_eq : NOOP = 4091 := rfl

theorem FLUSH_eq : FLUSH_DICTIONARY = 4093 := rfl

theorem EOF_eq : EOF_CODE = 4094 := rfl

theorem EOS_eq : EOS_CODE = 4095 := rfl

theorem MAX_DICT_SIZE_eq : MAX_DICT_SIZE = 4090 := rfl

/-! ### Decoder single-byte and single-group lemmas -/

theorem decompressLoop_cons_empty (dict key b rest r w out) :
    decompressLoop ⟨dict, key, ReadState.Empty⟩ (b :: rest) r w out =
      decompressLoop ⟨dict, key, ReadState.One b⟩ rest (r + 1) w out := rfl

theorem decompressLoop_cons_one (dict key f b rest r w out) :
    decompressLoop ⟨dict, key, ReadState.One f⟩ (b :: rest) r w out =
      decompressLoop ⟨dict, key, ReadState.Two f b⟩ rest (r + 1) w out := rfl


end LZW

namespace LZW

theorem decode_no_push (d : Decompressor) (v : Nat) (phrase : List Nat)
    (h : d.dict[v]? = some phrase) (hc : ¬((d.key ++ phrase).length > 1 ∧ v < 256)) :
    decode d v = some ({ d with key := d.key ++ phrase }, phrase) := by
  simp only [decode, h, if_neg hc]

theorem decode_push (d : Decompressor) (v : Nat) (phrase : List Nat)
    (h : d.dict[v]? = some phrase) (hc : (d.key ++ phrase).length > 1 ∧ v < 256) :
    decode d v = some ({ d with dict := d.dict ++ [d.key ++ phrase], key := [] }, phrase) := by
  simp only [decode, h, if_pos hc]

theorem loop_pair_group (dict : List (List Nat)) (p lit : Nat) (phrase : List Nat)
    (future : List Nat) (r w : Nat) (out : List Nat)
    (hp₁ : p ≤ 4090) (hphr : dict[p]? = some phrase) (hne : phrase ≠ [])
    (hlitv : lit < 256) (hlitp : dict[lit]? = some [lit])
    (hsing : p < 256 → phrase = [p]) :
    decompressLoop ⟨dict, [], ReadState.Empty⟩ (encodeOut p lit ++ future) r w out =
      decompressLoop ⟨dict ++ [phrase ++ [lit]], [], ReadState.Empty⟩ future (r + 3)
        (w + phrase.length + 1) (out ++ phrase ++ [lit]) := by
  have hfirst : unpackFirst (p % 256) (p / 256 * 16 + lit % 256 / 16) = p :=
    unpackFirst_norm p lit (by omega) (by omega)
  have hsecond : unpackSecond (p / 256 * 16 + lit % 256 / 16) (lit % 16 * 16 + lit / 256) = lit :=
    unpackSecond_norm p lit (by omega) (by omega)
  have hlen : 0 < phrase.length := List.length_pos.mpr hne
  have e1 : ¬ (p = 4091) := by omega
  have e2 : ¬ (p = 4094) := by omega
  have e3 : ¬ (p = 4095) := by omega
  have e4 : ¬ (p = 4093) := by omega
  have f1 : ¬ (lit = 4091) := by omega
  have f2 : ¬ (lit = 4094) := by omega
  have f3 : ¬ (lit = 4095) := by omega
  rw [encodeOut_eq p lit (by omega) (by omega)]
  simp only [List.cons_append, List.nil_append]
  rw [decompressLoop_cons_empty, decompressLoop_cons_one]
  simp only [decompressLoop, hfirst, hsecond, NOOP_eq, FLUSH_eq, EOF_eq, EOS_eq]
  rw [if_neg e1, if_neg e2, if_neg e3, if_neg e4]
  rw [decode_no_push _ _ _ hphr (by
    rintro ⟨h1, h2⟩
    rw [hsing h2] at h1
    simp at h1)]
  dsimp only
  rw [if_neg f1, if_neg f2, if_neg f3, if_neg e4]
  rw [decode_push _ _ _ hlitp (by
    refine ⟨?_, hlitv⟩
    simp only [List.nil_append, List.length_append, List.length_cons, List.length_nil]
    omega)]
  dsimp only
  norm_num

end LZW

namespace LZW

/-- Processing a packed group `(p, NOOP)` (the encoder's final half-group): the
decoder writes the phrase for `p` and keeps it in `key`; the NOOP pad is
ignored. -/
theorem loop_value_noop_group (dict : List (List Nat)) (p : Nat) (phrase : List Nat)
    (future : List Nat) (r w : Nat) (out : List Nat)
    (hp₁ : p ≤ 4090) (hphr : dict[p]? = some phrase)
    (hsing : p < 256 → phrase = [p]) :
    decompressLoop ⟨dict, [], ReadState.Empty⟩ (encodeOut p NOOP ++ future) r w out =
      decompressLoop ⟨dict, phrase, ReadState.Empty⟩ future (r + 3)
        (w + phrase.length) (out ++ phrase) := by
  have hfirst : unpackFirst (p % 256) (p / 256 * 16 + 4091 % 256 / 16) = p :=
    unpackFirst_norm p 4091 (by omega) (by omega)
  have hsecond : unpackSecond (p / 256 * 16 + 4091 % 256 / 16) (4091 % 16 * 16 + 4091 / 256) =
      4091 := unpackSecond_norm p 4091 (by omega) (by omega)
  have e1 : ¬ (p = 4091) := by omega
  have e2 : ¬ (p = 4094) := by omega
  have e3 : ¬ (p = 4095) := by omega
  have e4 : ¬ (p = 4093) := by omega
  rw [NOOP_eq, encodeOut_eq p 4091 (by omega) (by omega)]
  simp only [List.cons_append, List.nil_append]
  rw [decompressLoop_cons_empty, decompressLoop_cons_one]
  simp only [decompressLoop, hfirst, hsecond, NOOP_eq, FLUSH_eq, EOF_eq, EOS_eq]
  rw [if_neg e1, if_neg e2, if_neg e3, if_neg e4]
  rw [decode_no_push _ _ _ hphr (by
    rintro ⟨h1, h2⟩
    rw [hsing h2] at h1
    simp at h1)]
  dsimp only
  simp only [if_true]
  norm_num

/-- Processing a packed group `(FLUSH_DICTIONARY, NOOP)`: the decoder resets its
dictionary (and only its dictionary — `key` survives) and writes nothing. -/
theorem loop_flush_group (dict : List (List Nat)) (key : List Nat)
    (future : List Nat) (r w : Nat) (out : List Nat) :
    decompressLoop ⟨dict, key, ReadState.Empty⟩ (encodeOut FLUSH_DICTIONARY NOOP ++ future) r w out =
      decompressLoop ⟨initDecDict, key, ReadState.Empty⟩ future (r + 3) w out := by
  have hfirst : unpackFirst (4093 % 256) (4093 / 256 * 16 + 4091 % 256 / 16) = 4093 :=
    unpackFirst_norm 4093 4091 (by omega) (by omega)
  have hsecond : unpackSecond (4093 / 256 * 16 + 4091 % 256 / 16)
      (4091 % 16 * 16 + 4091 / 256) = 4091 :=
    unpackSecond_norm 4093 4091 (by omega) (by omega)
  rw [FLUSH_eq, NOOP_eq, encodeOut_eq 4093 4091 (by omega) (by omega)]
  simp only [List.cons_append, List.nil_append]
  rw [decompressLoop_cons_empty, decompressLoop_cons_one]
  simp only [decompressLoop, hfirst, hsecond, NOOP_eq, FLUSH_eq, EOF_eq, EOS_eq]
  rw [if_neg (by omega : ¬ (4093 : Nat) = 4091), if_neg (by omega : ¬ (4093 : Nat) = 4094),
    if_neg (by omega : ¬ (4093 : Nat) = 4095)]
  simp only [if_true]
  dsimp only [flushDecDict]
  norm_num

/-- Processing the terminal packed group `(EOF, EOF)`: the decoder stops
immediately, leaving any following bytes unread. -/
theorem loop_eof_group (dict : List (List Nat)) (key : List Nat)
    (future : List Nat) (r w : Nat) (out : List Nat) :
    decompressLoop ⟨dict, key, ReadState.Empty⟩ (encodeOut EOF_CODE EOF_CODE ++ future) r w out =
      some (⟨dict, key, ReadState.EOF⟩, out, r + 3, w) := by
  have hfirst : unpackFirst (4094 % 256) (4094 / 256 * 16 + 4094 % 256 / 16) = 4094 :=
    unpackFirst_norm 4094 4094 (by omega) (by omega)
  rw [EOF_eq, encodeOut_eq 4094 4094 (by omega) (by omega)]
  simp only [List.cons_append, List.nil_append]
  rw [decompressLoop_cons_empty, decompressLoop_cons_one]
  simp only [decompressLoop, hfirst, NOOP_eq, FLUSH_eq, EOF_eq, EOS_eq]
  rw [if_neg (by omega : ¬ (4094 : Nat) = 4091)]
  simp only [if_true]

/-- A trailing fragment of fewer than three bytes moves the unpacker state
machine but produces no action: the decoder still returns successfully. -/
theorem loop_short_tail (dict : List (List Nat)) (key : List Nat)
    (extra : List Nat) (r w : Nat) (out : List Nat) (hlen : extra.length ≤ 2) :
    ∃ d' : Decompressor,
      decompressLoop ⟨dict, key, ReadState.Empty⟩ extra r w out =
        some (d', out, r + extra.length, w) := by
  match extra, hlen with
  | [], _ => exact ⟨⟨dict, key, ReadState.Empty⟩, rfl⟩
  | [a], _ => exact ⟨⟨dict, key, ReadState.One a⟩, rfl⟩
  | [a, b], _ => exact ⟨⟨dict, key, ReadState.Two a b⟩, rfl⟩

end LZW

namespace LZW

/-- C10: when the first 12-bit code of a group is NOOP, EOF, or EOS, the second
code of that group is discarded without being processed at all (the result does
not depend on `z`, which carries the second code's low bits): for NOOP the
decoder proceeds to the next group, for EOF and EOS it terminates immediately. -/
theorem c10_first_slot_control_discards_second (dict : List (List Nat)) (key : List Nat)
    (x y z : Nat) (rest : List Nat) (r w : Nat) (out : List Nat) :
    (unpackFirst x y = NOOP →
      decompressLoop ⟨dict, key, ReadState.Empty⟩ (x :: y :: z :: rest) r w out =
        decompressLoop ⟨dict, key, ReadState.Empty⟩ rest (r + 3) w out) ∧
    (unpackFirst x y = EOF_CODE →
      decompressLoop ⟨dict, key, ReadState.Empty⟩ (x :: y :: z :: rest) r w out =
        some (⟨dict, key, ReadState.EOF⟩, out, r + 3, w)) ∧
    (unpackFirst x y = EOS_CODE →
      decompressLoop ⟨dict, key, ReadState.Empty⟩ (x :: y :: z :: rest) r w out =
        some (⟨dict, key, ReadState.EOS⟩, out, r + 3, w)) := by
  refine ⟨?_, ?_, ?_⟩ <;> intro h <;>
    rw [decompressLoop_cons_empty, decompressLoop_cons_one] <;>
    simp only [decompressLoop, h, NOOP_eq, FLUSH_eq, EOF_eq, EOS_eq] <;>
    norm_num

/-- Witness for C10: group [251, 240, 7] has first code NOOP (the decoder skips
to the next group), group [254, 255, 7] has first code EOF (the decoder stops). -/
theorem c10_witness :
    decompressLoop ⟨initDecDict, [], ReadState.Empty⟩ [251, 240, 7, 9] 0 0 [] =
      decompressLoop ⟨initDecDict, [], ReadState.Empty⟩ [9] (0 + 3) 0 [] ∧
    decompressLoop ⟨initDecDict, [], ReadState.Empty⟩ [254, 255, 7] 0 0 [] =
      some (⟨initDecDict, [], ReadState.EOF⟩, [], 0 + 3, 0) :=
  ⟨(c10_first_slot_control_discards_second initDecDict [] 251 240 7 [9] 0 0 []).1 (by decide),
    (c10_first_slot_control_discards_second initDecDict [] 254 255 7 [] 0 0 []).2.1 (by decide)⟩

/-- C9: if after the fully-formed groups `bs` the decoder is in a group-aligned
non-terminal state, then appending 1 or 2 trailing bytes (a truncated group)
still returns successfully: every trailing byte is counted in `bytes_read`, the
output and `bytes_written` are unchanged, and no error is reported. -/
theorem c9_truncated_stream (bs extra : List Nat) (dict : List (List Nat))
    (key decOut : List Nat) (r w : Nat)
    (hrun : ∀ future, decompressLoop Decompressor.init (bs ++ future) 0 0 [] =
      decompressLoop ⟨dict, key, ReadState.Empty⟩ future r w decOut)
    (hlen : extra.length ≤ 2) :
    lzwDecompress (bs ++ extra) = some (decOut, r + extra.length, w) := by
  obtain ⟨d', hd⟩ := loop_short_tail dict key extra r w decOut hlen
  simp only [lzwDecompress, hrun extra, hd]

/-- Witness for C9: one full group (the pair (32, 32)) followed by a single
dangling byte still decompresses successfully to two spaces. -/
theorem c9_witness :
    ([0] : List Nat).length ≤ 2 ∧
      lzwDecompress ([32, 2, 0] ++ [0]) = some ([32, 32], 4, 2) :=
  ⟨by decide, by
    have h := c9_truncated_stream [32, 2, 0] [0] (initDecDict ++ [[32, 32]]) [] [32, 32] 3 2
      (fun future => rfl) (by decide)
    simpa using h⟩

end LZW

namespace LZW

/-! ### Dictionary lemmas and encoder/decoder dictionary synchronization -/

theorem dictGet_cons (k : List Nat) (v : Nat) (e : List (List Nat × Nat)) (p : List Nat) :
    dictGet ((k, v) :: e) p = if p = k then some v else dictGet e p := rfl

theorem getElem?_some_lt {α : Type} {l : List α} {n : Nat} {a : α} (h : l[n]? = some a) :
    n < l.length := by
  by_contra hn
  rw [List.getElem?_eq_none (by omega)] at h
  exact Option.noConfusion h

theorem dictGet_map_singleton_mem (l : List Nat) (n : Nat) (h : n ∈ l) :
    dictGet (l.map fun k => ([k], k)) [n] = some n := by
  induction l with
  | nil => simp at h
  | cons a t ih =>
    simp only [List.map_cons, dictGet_cons]
    by_cases hna : n = a
    · subst hna; rw [if_pos rfl]
    · rw [if_neg (by simp [hna])]
      exact ih (by
        rcases List.mem_cons.mp h with h' | h'
        · exact absurd h' hna
        · exact h')

theorem dictGet_map_singleton_inv (l : List Nat) (p : List Nat) (c : Nat)
    (h : dictGet (l.map fun k => ([k], k)) p = some c) : p = [c] ∧ c ∈ l := by
  induction l with
  | nil => simp [dictGet] at h
  | cons a t ih =>
    simp only [List.map_cons, dictGet_cons] at h
    by_cases hpa : p = [a]
    · rw [if_pos hpa] at h
      obtain rfl : a = c := Option.some_injective _ h
      exact ⟨hpa, List.mem_cons_self a t⟩
    · rw [if_neg hpa] at h
      obtain ⟨h1, h2⟩ := ih h
      exact ⟨h1, List.mem_cons_of_mem a h2⟩

theorem initEncDict_get (n : Nat) (h : n < 256) : dictGet initEncDict [n] = some n :=
  dictGet_map_singleton_mem _ n (List.mem_range.mpr h)

theorem initEncDict_inv (p : List Nat) (c : Nat) (h : dictGet initEncDict p = some c) :
    p = [c] ∧ c < 256 := by
  obtain ⟨h1, h2⟩ := dictGet_map_singleton_inv _ _ _ h
  exact ⟨h1, List.mem_range.mp h2⟩

theorem initEncDict_length : initEncDict.length = 256 := by simp [initEncDict]

theorem initDecDict_get (n : Nat) (h : n < 256) : initDecDict[n]? = some [n] := by
  rw [initDecDict, List.getElem?_map]
  simp [List.getElem?_range h]

theorem initDecDict_length : initDecDict.length = 256 := by simp [initDecDict]

end LZW

namespace LZW


theorem DictSync_init : DictSync initEncDict initDecDict := by
  refine ⟨fun n h => initEncDict_get n h, fun n h => initDecDict_get n h, ?_, ?_, ?_, ?_, ?_⟩
  · intro p c h
    obtain ⟨rfl, hc⟩ := initEncDict_inv p c h
    exact initDecDict_get c hc
  · intro p c h
    obtain ⟨rfl, _⟩ := initEncDict_inv p c h
    simp
  · intro p c h
    obtain ⟨_, hc⟩ := initEncDict_inv p c h
    rw [initEncDict_length]
    exact hc
  · rw [initEncDict_length, initDecDict_length]
    left; rfl
  · rw [initEncDict_length]; omega

theorem DictSync.sizes (e : List (List Nat × Nat)) (dd : List (List Nat))
    (hs : DictSync e dd) : 256 ≤ e.length ∧ 256 ≤ dd.length := by
  obtain ⟨h1, h2, _, _, h5, _, _⟩ := hs
  have he : 255 < e.length := h5 [255] 255 (h1 255 (by omega))
  have hd : 255 < dd.length := getElem?_some_lt (h2 255 (by omega))
  omega

/-- Lockstep admission: the encoder inserts a fresh multi-byte key at code
`e.length` while the decoder pushes the same phrase at the same index. -/
theorem DictSync_insert (e : List (List Nat × Nat)) (dd : List (List Nat))
    (key' : List Nat) (hs : DictSync e dd) (hfresh : dictGet e key' = none)
    (hklen : 2 ≤ key'.length) (hcap : e.length ≤ 4090) :
    DictSync (dictInsert e key' e.length) (dd ++ [key']) := by
  obtain ⟨h1, h2, h3, h4, h5, h6, h7⟩ := hs
  have hddlen : dd.length = e.length := by
    rcases h6 with h | ⟨h, _⟩
    · exact h
    · omega
  have h256 : 256 ≤ dd.length := (DictSync.sizes e dd ⟨h1, h2, h3, h4, h5, h6, h7⟩).2
  refine ⟨?_, ?_, ?_, ?_, ?_, ?_, ?_⟩
  · intro n hn
    rw [dictInsert, dictGet_cons, if_neg (by
      intro hEq
      rw [← hEq] at hklen
      simp at hklen)]
    exact h1 n hn
  · intro n hn
    rw [List.getElem?_append_left (by omega)]
    exact h2 n hn
  · intro p c h
    rw [dictInsert, dictGet_cons] at h
    by_cases hp : p = key'
    · rw [if_pos hp] at h
      obtain rfl : e.length = c := Option.some_injective _ h
      rw [← hddlen, hp]
      exact List.getElem?_concat_length dd key'
    · rw [if_neg hp] at h
      have hold := h3 p c h
      rw [List.getElem?_append_left (getElem?_some_lt hold)]
      exact hold
  · intro p c h
    rw [dictInsert, dictGet_cons] at h
    by_cases hp : p = key'
    · subst hp
      intro hnil
      rw [hnil] at hklen
      simp at hklen
    · rw [if_neg hp] at h
      exact h4 p c h
  · intro p c h
    rw [dictInsert, dictGet_cons] at h
    rw [dictInsert, List.length_cons]
    by_cases hp : p = key'
    · rw [if_pos hp] at h
      obtain rfl : e.length = c := Option.some_injective _ h
      omega
    · rw [if_neg hp] at h
      have := h5 p c h
      omega
  · left
    rw [dictInsert, List.length_cons, List.length_append]
    simp [hddlen]
  · rw [dictInsert, List.length_cons]
    omega

/-- Past-capacity admission: the encoder is full and admits nothing, while the
decoder still pushes a surplus phrase; all mirrored bindings survive. -/
theorem DictSync_push_only (e : List (List Nat × Nat)) (dd : List (List Nat))
    (key' : List Nat) (hs : DictSync e dd) (hcap : e.length = 4091) :
    DictSync e (dd ++ [key']) := by
  obtain ⟨h1, h2, h3, h4, h5, h6, h7⟩ := hs
  have h256 : 256 ≤ dd.length := (DictSync.sizes e dd ⟨h1, h2, h3, h4, h5, h6, h7⟩).2
  refine ⟨h1, ?_, ?_, h4, h5, ?_, h7⟩
  · intro n hn
    rw [List.getElem?_append_left (by omega)]
    exact h2 n hn
  · intro p c h
    have hold := h3 p c h
    rw [List.getElem?_append_left (getElem?_some_lt hold)]
    exact hold
  · right
    constructor
    · exact hcap
    · rw [List.length_append]
      rcases h6 with h | ⟨_, h⟩ <;> simp <;> omega

end LZW

namespace LZW

/-! ### Encoder step characterizations -/

theorem encodeOut_length (a b : Nat) : (encodeOut a b).length = 3 := rfl

theorem missOrMatch_hit (c : Compressor) (b i : Nat)
    (h : dictGet c.dict (c.key ++ [b]) = some i) :
    missOrMatch c b = ({ c with key := c.key ++ [b], value := some i }, []) := by
  simp only [missOrMatch, h]

theorem missOrMatch_miss_insert (c : Compressor) (b cv : Nat)
    (h : dictGet c.dict (c.key ++ [b]) = none) (hv : c.value = some cv)
    (hw : c.write_state = none) (hlen : c.dict.length ≤ MAX_DICT_SIZE) :
    missOrMatch c b =
      ({ dict := dictInsert c.dict (c.key ++ [b]) c.dict.length, key := [],
          value := none, write_state := none }, encodeOut cv b) := by
  simp only [missOrMatch, h, hv, encode, hw, if_pos hlen, List.nil_append]

theorem missOrMatch_miss_full (c : Compressor) (b cv : Nat)
    (h : dictGet c.dict (c.key ++ [b]) = none) (hv : c.value = some cv)
    (hw : c.write_state = none) (hlen : ¬ c.dict.length ≤ MAX_DICT_SIZE) :
    missOrMatch c b =
      ({ c with key := [], value := none, write_state := none }, encodeOut cv b) := by
  simp only [missOrMatch, h, hv, encode, hw, if_neg hlen, List.nil_append]

theorem flushPhase_no (c : Compressor) (r w r0 w0 : Nat)
    (h : ¬(c.dict.length > 4000 ∧ compressionRatioTrunc (r - r0) (w - w0) > 200)) :
    flushPhase c r w r0 w0 = (c, [], r0, w0) := by
  simp only [flushPhase, if_neg h]

theorem flushPhase_yes (c : Compressor) (r w r0 w0 : Nat) (hw : c.write_state = none)
    (h : c.dict.length > 4000 ∧ compressionRatioTrunc (r - r0) (w - w0) > 200) :
    flushPhase c r w r0 w0 =
      ({ c with dict := initEncDict, write_state := none },
        encodeOut FLUSH_DICTIONARY NOOP, r, w + 3) := by
  simp only [flushPhase, if_pos h, encode, hw, flushPacker, encodeOut_length,
    List.nil_append, List.length_nil, Nat.add_zero]

/-- The truncated ratio does not grow when only `bytes_read` advances, so the
flush condition stays false across a dictionary-hit step. -/
theorem flushCond_not_new (L r w r0 w0 : Nat) (hr : r0 ≤ r) (hzero : r = r0 → w = w0)
    (h : ¬(L > 4000 ∧ compressionRatioTrunc (r - r0) (w - w0) > 200)) :
    ¬(L > 4000 ∧ compressionRatioTrunc (r + 1 - r0) (w - w0) > 200) := by
  rintro ⟨hx, hnew⟩
  rcases Decidable.em (r = r0) with hd | hd
  · rw [hzero hd] at hnew
    simp [compressionRatioTrunc] at hnew
  · apply h
    refine ⟨hx, lt_of_lt_of_le hnew ?_⟩
    exact Nat.div_le_div_left (by omega) (by omega)

/-! ### The compression round-trip invariant -/



theorem Inv_init : Inv Compressor.init [] [] := by
  refine ⟨rfl, Or.inl ⟨rfl, rfl⟩, initDecDict, [], 0, 0, fun _ => rfl, rfl, DictSync_init⟩

theorem CInv_init : CInv Compressor.init 0 0 0 0 := by
  refine ⟨Nat.le.refl, Nat.le.refl, fun _ => rfl, ?_⟩
  rintro ⟨h, _⟩
  rw [show Compressor.init.dict = initEncDict from rfl, initEncDict_length] at h
  omega

end LZW

namespace LZW


/-- One encoder byte-step preserves the round-trip invariant and the counter
invariant (at the step's returned counters). -/
theorem compressStep_sim (c : Compressor) (b : Nat) (r w r0 w0 : Nat)
    (consumed out : List Nat) (hb : b < 256)
    (hInv : Inv c consumed out) (hC : CInv c r w r0 w0) :
    Inv (compressStep c b r w r0 w0).1 (consumed ++ [b])
      (out ++ (compressStep c b r w r0 w0).2.1) ∧
    CInv (compressStep c b r w r0 w0).1 (compressStep c b r w r0 w0).2.2.1
      (compressStep c b r w r0 w0).2.2.2.1 (compressStep c b r w r0 w0).2.2.2.2.1
      (compressStep c b r w r0 w0).2.2.2.2.2 := by
  obtain ⟨hws, hkv, ddict, decOut, rD, wD, hcont, hout, hsync⟩ := hInv
  obtain ⟨hr0, hw0, hzero, hcondP⟩ := hC
  have hsync' := hsync
  obtain ⟨s1, s2, s3, s4, s5, s6, s7⟩ := hsync
  cases hget : dictGet c.dict (c.key ++ [b]) with
  | some i =>
    have hm := missOrMatch_hit c b i hget
    rw [hws] at hm
    by_cases hcond : c.dict.length > 4000 ∧
        compressionRatioTrunc (r + 1 - r0) (w - w0) > 200
    · -- the flush fires after a hit: only possible with an empty previous key
      rcases hkv with ⟨hkey, hval⟩ | ⟨hkey, cv, hv, hlook⟩
      · have hib : i = b := by
          have hs := s1 b hb
          rw [hkey, List.nil_append] at hget
          rw [hget] at hs
          exact Option.some_injective _ hs
        subst hib
        rw [hkey, List.nil_append] at hm hget
        rw [hkey, List.append_nil] at hout
        simp only [compressStep, hm, List.length_nil, Nat.add_zero, List.nil_append]
        rw [flushPhase_yes
          { dict := c.dict, key := [i], value := some i, write_state := none }
          (r + 1) w r0 w0 rfl hcond]
        dsimp only
        simp only [encodeOut_length]
        constructor
        · refine ⟨rfl, Or.inr ⟨by simp, i, rfl, initEncDict_get i hb⟩,
            initDecDict, decOut, rD + 3, wD, ?_, ?_, DictSync_init⟩
          · intro future
            rw [List.append_assoc, hcont (encodeOut FLUSH_DICTIONARY NOOP ++ future)]
            exact loop_flush_group ddict [] future rD wD decOut
          · rw [hout]
        · refine ⟨by omega, by omega, by omega, ?_⟩
          rintro ⟨hL, _⟩
          rw [initEncDict_length] at hL
          omega
      · exact absurd hcond (flushCond_not_new c.dict.length r w r0 w0 hr0 hzero hcondP)
    · simp only [compressStep, hm, List.length_nil, Nat.add_zero, List.nil_append]
      rw [flushPhase_no
        { dict := c.dict, key := c.key ++ [b], value := some i, write_state := none }
        (r + 1) w r0 w0 hcond]
      dsimp only
      constructor
      · refine ⟨rfl, Or.inr ⟨by simp, i, rfl, hget⟩, ddict, decOut, rD, wD, ?_, ?_, hsync'⟩
        · intro future
          rw [List.append_nil]
          exact hcont future
        · rw [← List.append_assoc, hout]
      · exact ⟨by omega, by omega, by omega, hcond⟩
  | none =>
    have hkey_ne : c.key ≠ [] := by
      intro hkey
      have hs := s1 b hb
      rw [hkey, List.nil_append] at hget
      rw [hget] at hs
      exact Option.noConfusion hs
    rcases hkv with ⟨hkey, _⟩ | ⟨_, cv, hv, hlook⟩
    · exact absurd hkey hkey_ne
    have hcv90 : cv ≤ 4090 := by
      have := s5 _ _ hlook
      omega
    have hphr : ddict[cv]? = some c.key := s3 _ _ hlook
    have hsing : cv < 256 → c.key = [cv] := by
      intro hlt
      have h2 := s2 cv hlt
      rw [hphr] at h2
      exact Option.some_injective _ h2
    have hk2 : 2 ≤ (c.key ++ [b]).length := by
      have := List.length_pos.mpr hkey_ne
      rw [List.length_append, List.length_singleton]
      omega
    have hcontPair : ∀ future,
        decompressLoop Decompressor.init (out ++ (encodeOut cv b ++ future)) 0 0 [] =
          decompressLoop ⟨ddict ++ [c.key ++ [b]], [], ReadState.Empty⟩ future (rD + 3)
            (wD + c.key.length + 1) (decOut ++ c.key ++ [b]) := by
      intro future
      rw [hcont (encodeOut cv b ++ future)]
      exact loop_pair_group ddict cv b c.key future rD wD decOut hcv90 hphr hkey_ne
        hb (s2 b hb) hsing
    have houtb : (decOut ++ c.key ++ [b]) ++ ([] : List Nat) = consumed ++ [b] := by
      rw [List.append_nil, hout]
    by_cases hcap : c.dict.length ≤ MAX_DICT_SIZE
    · have hm := missOrMatch_miss_insert c b cv hget hv hws hcap
      simp only [compressStep, hm, encodeOut_length]
      by_cases hcond : (dictInsert c.dict (c.key ++ [b]) c.dict.length).length > 4000 ∧
          compressionRatioTrunc (r + 1 - r0) (w + 3 - w0) > 200
      · rw [flushPhase_yes
          { dict := dictInsert c.dict (c.key ++ [b]) c.dict.length, key := [],
            value := none, write_state := none } (r + 1) (w + 3) r0 w0 rfl hcond]
        dsimp only
        simp only [encodeOut_length]
        constructor
        · refine ⟨rfl, Or.inl ⟨rfl, rfl⟩, initDecDict, decOut ++ c.key ++ [b],
            rD + 3 + 3, wD + c.key.length + 1, ?_, houtb, DictSync_init⟩
          intro future
          rw [List.append_assoc, List.append_assoc,
            hcontPair (encodeOut FLUSH_DICTIONARY NOOP ++ future)]
          exact loop_flush_group (ddict ++ [c.key ++ [b]]) [] future (rD + 3)
            (wD + c.key.length + 1) (decOut ++ c.key ++ [b])
        · refine ⟨by omega, by omega, by omega, ?_⟩
          rintro ⟨hL, _⟩
          rw [initEncDict_length] at hL
          omega
      · rw [flushPhase_no
          { dict := dictInsert c.dict (c.key ++ [b]) c.dict.length, key := [],
            value := none, write_state := none } (r + 1) (w + 3) r0 w0 hcond]
        dsimp only
        constructor
        · refine ⟨rfl, Or.inl ⟨rfl, rfl⟩, ddict ++ [c.key ++ [b]], decOut ++ c.key ++ [b],
            rD + 3, wD + c.key.length + 1, ?_, houtb,
            DictSync_insert c.dict ddict (c.key ++ [b]) hsync' hget hk2 (by
              rw [MAX_DICT_SIZE_eq] at hcap
              omega)⟩
          intro future
          rw [List.append_nil, List.append_assoc]
          exact hcontPair future
        · exact ⟨by omega, by omega, by omega, hcond⟩
    · have hfull : c.dict.length = 4091 := by
        rw [MAX_DICT_SIZE_eq] at hcap
        omega
      have hm := missOrMatch_miss_full c b cv hget hv hws hcap
      simp only [compressStep, hm, encodeOut_length]
      by_cases hcond : c.dict.length > 4000 ∧
          compressionRatioTrunc (r + 1 - r0) (w + 3 - w0) > 200
      · rw [flushPhase_yes
          { dict := c.dict, key := [], value := none, write_state := none }
          (r + 1) (w + 3) r0 w0 rfl hcond]
        dsimp only
        simp only [encodeOut_length]
        constructor
        · refine ⟨rfl, Or.inl ⟨rfl, rfl⟩, initDecDict, decOut ++ c.key ++ [b],
            rD + 3 + 3, wD + c.key.length + 1, ?_, houtb, DictSync_init⟩
          intro future
          rw [List.append_assoc, List.append_assoc,
            hcontPair (encodeOut FLUSH_DICTIONARY NOOP ++ future)]
          exact loop_flush_group (ddict ++ [c.key ++ [b]]) [] future (rD + 3)
            (wD + c.key.length + 1) (decOut ++ c.key ++ [b])
        · refine ⟨by omega, by omega, by omega, ?_⟩
          rintro ⟨hL, _⟩
          rw [initEncDict_length] at hL
          omega
      · rw [flushPhase_no
          { dict := c.dict, key := [], value := none, write_state := none }
          (r + 1) (w + 3) r0 w0 hcond]
        dsimp only
        constructor
        · refine ⟨rfl, Or.inl ⟨rfl, rfl⟩, ddict ++ [c.key ++ [b]], decOut ++ c.key ++ [b],
            rD + 3, wD + c.key.length + 1, ?_, houtb,
            DictSync_push_only c.dict ddict (c.key ++ [b]) hsync' hfull⟩
          intro future
          rw [List.append_nil, List.append_assoc]
          exact hcontPair future
        · exact ⟨by omega, by omega, by omega, hcond⟩

end LZW

namespace LZW

/-- The whole encoder loop preserves the round-trip invariant. -/
theorem compressLoop_sim (input : List Nat) : ∀ (c : Compressor) (r w r0 w0 : Nat)
    (consumed out : List Nat), (∀ b ∈ input, b < 256) → Inv c consumed out →
    CInv c r w r0 w0 →
    Inv (compressLoop c input r w r0 w0).1 (consumed ++ input)
      (out ++ (compressLoop c input r w r0 w0).2.1) := by
  induction input with
  | nil =>
    intro c r w r0 w0 consumed out _ hInv _
    simpa [compressLoop] using hInv
  | cons b rest ih =>
    intro c r w r0 w0 consumed out hb hInv hC
    obtain ⟨hI, hc⟩ := compressStep_sim c b r w r0 w0 consumed out
      (hb b (List.mem_cons_self b rest)) hInv hC
    have hrec := ih (compressStep c b r w r0 w0).1 (compressStep c b r w r0 w0).2.2.1
      (compressStep c b r w r0 w0).2.2.2.1 (compressStep c b r w r0 w0).2.2.2.2.1
      (compressStep c b r w r0 w0).2.2.2.2.2 (consumed ++ [b])
      (out ++ (compressStep c b r w r0 w0).2.1)
      (fun x hx => hb x (List.mem_cons_of_mem b hx)) hI hc
    simp only [compressLoop]
    rw [List.append_assoc] at hrec
    rw [List.append_assoc] at hrec
    simpa [List.singleton_append] using hrec

theorem compressFinish_none (c : Compressor) (hv : c.value = none)
    (hw : c.write_state = none) : compressFinish c = (c, []) := by
  simp only [compressFinish, hv, flushPacker, hw, List.nil_append]

theorem compressFinish_some (c : Compressor) (cv : Nat) (hv : c.value = some cv)
    (hw : c.write_state = none) :
    compressFinish c = ({ c with write_state := none }, encodeOut cv NOOP) := by
  simp only [compressFinish, hv, encode, hw, flushPacker, List.nil_append]

theorem endOfFile_out (c : Compressor) (hw : c.write_state = none) :
    endOfFile c = ({ c with write_state := none }, encodeOut EOF_CODE EOF_CODE) := by
  simp only [endOfFile, flushPacker, hw, encode, List.nil_append, List.append_nil]

end LZW

namespace LZW

/-- C1: round-trip.  For every byte sequence X, decompressing the output of
`compress` writes exactly X to the output sink (and decompress succeeds, i.e.
does not panic). -/
theorem c1_round_trip (X : List Nat) (hX : ∀ b ∈ X, b < 256) :
    ∃ r w, lzwDecompress (lzwCompress X).1 = some (X, r, w) := by
  have hloop := compressLoop_sim X Compressor.init 0 0 0 0 [] [] hX Inv_init CInv_init
  rw [List.nil_append] at hloop
  obtain ⟨L, hL⟩ : ∃ L, compressLoop Compressor.init X 0 0 0 0 = L := ⟨_, rfl⟩
  rw [hL] at hloop
  obtain ⟨hws, hkv, ddict, decOut, rD, wD, hcont, hout, hsync⟩ := hloop
  obtain ⟨s1, s2, s3, s4, s5, s6, s7⟩ := hsync
  rw [List.nil_append] at hcont
  rcases hkv with ⟨hkey, hval⟩ | ⟨hkey_ne, cv, hv, hlook⟩
  · -- no pending value at the end of the input
    refine ⟨rD + 3, wD, ?_⟩
    rw [hkey, List.append_nil] at hout
    simp only [lzwCompress, hL, compressFinish_none _ hval hws, List.append_nil]
    rw [endOfFile_out _ hws]
    rw [show (encodeOut EOF_CODE EOF_CODE : List Nat) =
      encodeOut EOF_CODE EOF_CODE ++ [] from (List.append_nil _).symm]
    simp only [lzwDecompress, hcont (encodeOut EOF_CODE EOF_CODE ++ []),
      loop_eof_group ddict [] [] rD wD decOut]
    rw [hout]
  · -- a pending value is emitted, padded with NOOP, then the EOF frame
    refine ⟨rD + 3 + 3, wD + L.1.key.length, ?_⟩
    have hcv90 : cv ≤ 4090 := by
      have := s5 _ _ hlook
      omega
    have hphr : ddict[cv]? = some L.1.key := s3 _ _ hlook
    have hsing : cv < 256 → L.1.key = [cv] := by
      intro hlt
      have h2 := s2 cv hlt
      rw [hphr] at h2
      exact Option.some_injective _ h2
    simp only [lzwCompress, hL, compressFinish_some _ cv hv hws]
    rw [endOfFile_out
      { dict := L.1.dict, key := L.1.key, value := L.1.value, write_state := none } rfl]
    rw [List.append_assoc]
    rw [show (encodeOut EOF_CODE EOF_CODE : List Nat) =
      encodeOut EOF_CODE EOF_CODE ++ [] from (List.append_nil _).symm]
    simp only [lzwDecompress,
      hcont (encodeOut cv NOOP ++ (encodeOut EOF_CODE EOF_CODE ++ [])),
      loop_value_noop_group ddict cv _ (encodeOut EOF_CODE EOF_CODE ++ []) rD wD decOut
        hcv90 hphr hsing,
      loop_eof_group ddict _ [] (rD + 3) _ _]
    rw [hout]

/-- Witness for C1 at the concrete input "Hi" (bytes [72, 105]). -/
theorem c1_round_trip_witness :
    (∀ b ∈ [72, 105], b < 256) ∧
      ∃ r w, lzwDecompress (lzwCompress [72, 105]).1 = some ([72, 105], r, w) :=
  ⟨by decide, c1_round_trip [72, 105] (by decide)⟩

end LZW

namespace LZW

/-! ### Claim C3: dictionary admission bounds -/


theorem encode_dict (c : Compressor) (v : Nat) : (encode c v).1.dict = c.dict := by
  cases hw : c.write_state <;> simp [encode, hw]

theorem missOrMatch_dict (c : Compressor) (b : Nat) :
    (missOrMatch c b).1.dict = c.dict ∨
      ((missOrMatch c b).1.dict = dictInsert c.dict (c.key ++ [b]) c.dict.length ∧
        c.dict.length ≤ MAX_DICT_SIZE) := by
  cases hget : dictGet c.dict (c.key ++ [b]) with
  | some i =>
    left
    rw [missOrMatch_hit c b i hget]
  | none =>
    cases hv : c.value with
    | none =>
      simp only [missOrMatch, hget, hv]
      by_cases hcap : c.dict.length ≤ MAX_DICT_SIZE
      · right
        cases hw : c.write_state <;> simp [encode, hw, hcap]
      · left
        cases hw : c.write_state <;> simp [encode, hw, hcap]
    | some cv =>
      simp only [missOrMatch, hget, hv]
      by_cases hcap : c.dict.length ≤ MAX_DICT_SIZE
      · right
        cases hw : c.write_state <;> simp [encode, hw, hcap]
      · left
        cases hw : c.write_state <;> simp [encode, hw, hcap]

theorem flushPhase_dict (c : Compressor) (r w r0 w0 : Nat) :
    (flushPhase c r w r0 w0).1.dict = c.dict ∨ (flushPhase c r w r0 w0).1.dict = initEncDict := by
  by_cases h : c.dict.length > 4000 ∧ compressionRatioTrunc (r - r0) (w - w0) > 200
  · right
    simp [flushPhase, h]
  · left
    simp [flushPhase, h]

theorem EncBound_initEncDict : (∀ e ∈ initEncDict, e.2 ≤ 4090) ∧ initEncDict.length = 256 := by
  constructor
  · intro e he
    simp only [initEncDict, List.mem_map, List.mem_range] at he
    obtain ⟨n, hn, rfl⟩ := he
    omega
  · exact initEncDict_length

theorem compressStep_bound (c : Compressor) (b : Nat) (r w r0 w0 : Nat)
    (h : EncBound c) : EncBound (compressStep c b r w r0 w0).1 := by
  obtain ⟨hcodes, hlen⟩ := h
  have hmid : EncBound (missOrMatch c b).1 := by
    rcases missOrMatch_dict c b with hd | ⟨hd, hcap⟩
    · exact ⟨by rw [hd]; exact hcodes, by rw [hd]; exact hlen⟩
    · constructor
      · rw [hd, dictInsert]
        intro e he
        rcases List.mem_cons.mp he with rfl | he'
        · rw [MAX_DICT_SIZE_eq] at hcap
          simpa using hcap
        · exact hcodes e he'
      · rw [hd, dictInsert, List.length_cons]
        rw [MAX_DICT_SIZE_eq] at hcap
        omega
  obtain ⟨hcodes', hlen'⟩ := hmid
  simp only [compressStep]
  rcases flushPhase_dict (missOrMatch c b).1 (r + 1) (w + (missOrMatch c b).2.length) r0 w0
    with hd | hd
  · exact ⟨by rw [hd]; exact hcodes', by rw [hd]; exact hlen'⟩
  · refine ⟨by rw [hd]; exact EncBound_initEncDict.1, by rw [hd, EncBound_initEncDict.2]; omega⟩

theorem compressLoop_bound (input : List Nat) : ∀ (c : Compressor) (r w r0 w0 : Nat),
    EncBound c → EncBound (compressLoop c input r w r0 w0).1 := by
  induction input with
  | nil => intro c r w r0 w0 h; simpa [compressLoop] using h
  | cons b rest ih =>
    intro c r w r0 w0 h
    simp only [compressLoop]
    exact ih _ _ _ _ _ (compressStep_bound c b r w r0 w0 h)

/-- C3 amended, stated in two parts: (1) after encoding any input from a fresh
compressor every dictionary entry has a code of at most 4090 (so codes 4091+
are never used, but code 4090 itself is reachable) and the dictionary never
exceeds 4091 entries; (2) once the dictionary holds 4091 entries, a step never
inserts: the dictionary either stays unchanged or is reset to the 256 literals. -/
theorem c3_amended :
    (∀ input : List Nat,
      (∀ e ∈ (compressLoop Compressor.init input 0 0 0 0).1.dict, e.2 ≤ 4090) ∧
        (compressLoop Compressor.init input 0 0 0 0).1.dict.length ≤ 4091) ∧
    (∀ (c : Compressor) (b : Nat) (r w r0 w0 : Nat), c.dict.length = 4091 →
      (compressStep c b r w r0 w0).1.dict = c.dict ∨
        (compressStep c b r w r0 w0).1.dict = initEncDict) := by
  constructor
  · intro input
    apply compressLoop_bound
    refine ⟨EncBound_initEncDict.1, ?_⟩
    rw [show Compressor.init.dict = initEncDict from rfl]
    rw [EncBound_initEncDict.2]
    omega
  · intro c b r w r0 w0 hfull
    simp only [compressStep]
    rcases flushPhase_dict (missOrMatch c b).1 (r + 1) (w + (missOrMatch c b).2.length) r0 w0
      with hd | hd
    · rw [hd]
      rcases missOrMatch_dict c b with hd' | ⟨_, hcap⟩
      · left; exact hd'
      · rw [MAX_DICT_SIZE_eq] at hcap
        omega
    · right; exact hd

end LZW

namespace LZW


/-- Witness for the amended C3 at the full dictionary state. -/
theorem c3_amended_witness :
    fullCompressor.dict.length = 4091 ∧
      ((compressStep fullCompressor 5 0 0 0 0).1.dict = fullCompressor.dict ∨
        (compressStep fullCompressor 5 0 0 0 0).1.dict = initEncDict) := by
  have hlen : fullCompressor.dict.length = 4091 := by
    rw [show fullCompressor.dict = List.replicate 3835 ([0, 1], 300) ++ initEncDict from rfl,
      List.length_append, List.length_replicate, initEncDict_length]
  exact ⟨hlen, c3_amended.2 fullCompressor 5 0 0 0 0 hlen⟩

end LZW

namespace LZW




theorem pairKey_injEq (j m : Nat) (h : pairKey j = pairKey m) : j = m := by
  simp only [pairKey, List.cons.injEq, and_true] at h
  omega

theorem pairsDict_length (n : Nat) : (pairsDict n).length = 256 + n := by
  induction n with
  | zero => simpa [pairsDict] using initEncDict_length
  | succ k ih => simp [pairsDict, ih]; omega

theorem dictGet_pairsDict_single (n a : Nat) (ha : a < 256) :
    dictGet (pairsDict n) [a] = some a := by
  induction n with
  | zero => exact initEncDict_get a ha
  | succ k ih =>
    rw [pairsDict, dictGet_cons, if_neg (by simp [pairKey])]
    exact ih

theorem dictGet_initEncDict_len2 (p : List Nat) (hp : p.length = 2) :
    dictGet initEncDict p = none := by
  cases h : dictGet initEncDict p with
  | none => rfl
  | some c =>
    obtain ⟨rfl, _⟩ := initEncDict_inv p c h
    simp at hp

theorem dictGet_pairsDict_none (n m : Nat) (h : n ≤ m) :
    dictGet (pairsDict n) (pairKey m) = none := by
  induction n with
  | zero => exact dictGet_initEncDict_len2 _ (by simp [pairKey])
  | succ k ih =>
    rw [pairsDict, dictGet_cons, if_neg (by
      intro hEq
      have := pairKey_injEq m k hEq
      omega)]
    exact ih (by omega)

theorem badInput_succ (n : Nat) : badInput (n + 1) = badInput n ++ pairKey n := by
  rw [badInput, badInput, List.range_succ, List.flatMap_append]
  simp

theorem compressLoop_append (xs : List Nat) : ∀ (ys : List Nat) (c c₁ : Compressor)
    (o₁ : List Nat) (r w r0 w0 r₁ w₁ r01 w01 : Nat),
    compressLoop c xs r w r0 w0 = (c₁, o₁, r₁, w₁, r01, w01) →
    compressLoop c (xs ++ ys) r w r0 w0 =
      ((compressLoop c₁ ys r₁ w₁ r01 w01).1, o₁ ++ (compressLoop c₁ ys r₁ w₁ r01 w01).2.1,
        (compressLoop c₁ ys r₁ w₁ r01 w01).2.2.1, (compressLoop c₁ ys r₁ w₁ r01 w01).2.2.2.1,
        (compressLoop c₁ ys r₁ w₁ r01 w01).2.2.2.2.1,
        (compressLoop c₁ ys r₁ w₁ r01 w01).2.2.2.2.2) := by
  induction xs with
  | nil =>
    intro ys c c₁ o₁ r w r0 w0 r₁ w₁ r01 w01 h
    simp only [compressLoop, Prod.mk.injEq] at h
    obtain ⟨rfl, rfl, rfl, rfl, rfl, rfl⟩ := h
    simp
  | cons b xs' ih =>
    intro ys c c₁ o₁ r w r0 w0 r₁ w₁ r01 w01 h
    simp only [compressLoop, Prod.mk.injEq] at h ⊢
    obtain ⟨t, hT⟩ : ∃ t, compressLoop (compressStep c b r w r0 w0).1 xs'
        (compressStep c b r w r0 w0).2.2.1 (compressStep c b r w r0 w0).2.2.2.1
        (compressStep c b r w r0 w0).2.2.2.2.1 (compressStep c b r w r0 w0).2.2.2.2.2 = t :=
      ⟨_, rfl⟩
    obtain ⟨tc, tout, tr, tw, tr0, tw0⟩ := t
    rw [hT] at h
    obtain ⟨rfl, rfl, rfl, rfl, rfl, rfl⟩ := h
    have := ih ys (compressStep c b r w r0 w0).1 tc tout
      (compressStep c b r w r0 w0).2.2.1 (compressStep c b r w r0 w0).2.2.2.1
      (compressStep c b r w r0 w0).2.2.2.2.1 (compressStep c b r w r0 w0).2.2.2.2.2
      tr tw tr0 tw0 hT
    simp only [List.append_eq]
    rw [this]
    simp [List.append_assoc]

end LZW

namespace LZW

theorem badInput_step1 (k : Nat) (hk : k ≤ 3834) :
    compressStep ⟨pairsDict k, [], none, none⟩ (k / 256) (2 * k) (3 * k) 0 0 =
      (⟨pairsDict k, [k / 256], some (k / 256), none⟩, [], 2 * k + 1, 3 * k, 0, 0) := by
  have ha : k / 256 < 256 := by omega
  have hm := missOrMatch_hit ⟨pairsDict k, [], none, none⟩ (k / 256) (k / 256)
    (dictGet_pairsDict_single k (k / 256) ha)
  simp only [compressStep, hm, List.length_nil, Nat.add_zero, List.nil_append]
  rw [flushPhase_no
    { dict := pairsDict k, key := [k / 256], value := some (k / 256), write_state := none }
    (2 * k + 1) (3 * k) 0 0 (by
      rintro ⟨_, hgt⟩
      have hle : 3 * k * 100 / (2 * k + 1) ≤ 200 := by
        have h201 : 3 * k * 100 / (2 * k + 1) < 201 := by
          rw [Nat.div_lt_iff_lt_mul (show 0 < 2 * k + 1 by omega)]
          ring_nf
          omega
        omega
      simp only [Nat.sub_zero, compressionRatioTrunc] at hgt
      omega)]
  simp

theorem badInput_step2 (k : Nat) (hk : k ≤ 3834) :
    compressStep ⟨pairsDict k, [k / 256], some (k / 256), none⟩ (k % 256) (2 * k + 1) (3 * k) 0 0 =
      (⟨pairsDict (k + 1), [], none, none⟩, encodeOut (k / 256) (k % 256),
        2 * k + 2, 3 * k + 3, 0, 0) := by
  have hm := missOrMatch_miss_insert ⟨pairsDict k, [k / 256], some (k / 256), none⟩ (k % 256)
    (k / 256) (dictGet_pairsDict_none k k (Nat.le_refl k)) rfl rfl
    (by
      show (pairsDict k).length ≤ MAX_DICT_SIZE
      rw [pairsDict_length, MAX_DICT_SIZE_eq]
      omega)
  simp only [compressStep, hm, encodeOut_length]
  rw [flushPhase_no
    { dict := dictInsert (pairsDict k) ([k / 256] ++ [k % 256]) (pairsDict k).length,
      key := [], value := none, write_state := none }
    (2 * k + 1 + 1) (3 * k + 3) 0 0 (by
      rintro ⟨_, hgt⟩
      have hle : (3 * k + 3) * 100 / (2 * k + 1 + 1) ≤ 200 := by
        have h201 : (3 * k + 3) * 100 / (2 * k + 1 + 1) < 201 := by
          rw [Nat.div_lt_iff_lt_mul (show 0 < 2 * k + 1 + 1 by omega)]
          ring_nf
          omega
        omega
      simp only [Nat.sub_zero, compressionRatioTrunc] at hgt
      omega)]
  simp only [dictInsert, pairsDict, pairsDict_length, Prod.mk.injEq]
  refine ⟨by simp [pairKey], by simp, trivial, by simp, trivial⟩

theorem badInput_pair (k : Nat) (hk : k ≤ 3834) :
    compressLoop ⟨pairsDict k, [], none, none⟩ (pairKey k) (2 * k) (3 * k) 0 0 =
      (⟨pairsDict (k + 1), [], none, none⟩, encodeOut (k / 256) (k % 256),
        2 * k + 2, 3 * k + 3, 0, 0) := by
  show compressLoop ⟨pairsDict k, [], none, none⟩ [k / 256, k % 256] (2 * k) (3 * k) 0 0 = _
  simp only [compressLoop, badInput_step1 k hk]
  simp only [badInput_step2 k hk]
  simp

/-- Executing the compressor on `badInput n` (n ≤ 3835) fills the dictionary
with exactly the n pairs at codes 256..255+n. -/
theorem badInput_trace (n : Nat) (hn : n ≤ 3835) :
    ∃ out, compressLoop Compressor.init (badInput n) 0 0 0 0 =
      (⟨pairsDict n, [], none, none⟩, out, 2 * n, 3 * n, 0, 0) := by
  induction n with
  | zero => exact ⟨[], rfl⟩
  | succ k ih =>
    obtain ⟨out, hk⟩ := ih (by omega)
    have hcomb := compressLoop_append (badInput k) (pairKey k) Compressor.init
      ⟨pairsDict k, [], none, none⟩ out 0 0 0 0 (2 * k) (3 * k) 0 0 hk
    refine ⟨out ++ encodeOut (k / 256) (k % 256), ?_⟩
    rw [badInput_succ, hcomb, badInput_pair k (by omega)]
    simp only [Prod.mk.injEq]
    refine ⟨trivial, trivial, by omega, by omega, trivial⟩

/-- C3 is false as stated: on the concrete 7670-byte input `badInput 3835` (the
pairs (j / 256, j % 256) for j < 3835) the encoder inserts the entry
([14, 250], 4090) — a dictionary entry with code 4090 — the moment the
dictionary holds 4090 entries.  The final dictionary's newest entry carries
code 4090 ≥ 4090, although the initial dictionary only held codes ≤ 255. -/
theorem c3_counterexample :
    (compressLoop Compressor.init (badInput 3835) 0 0 0 0).1.dict.head? =
      some ([14, 250], 4090) := by
  obtain ⟨out, h⟩ := badInput_trace 3835 (Nat.le_refl 3835)
  rw [h]
  rfl

end LZW

namespace LZW

/-- C7: after processing one input byte (the match/miss phase), the encoder
emits a FLUSH_DICTIONARY group if and only if the dictionary size exceeds 4000
entries and the truncated integer percentage (bytes written / bytes read since
the last flush) × 100 exceeds 200.  When the condition holds it emits
FLUSH_DICTIONARY, pads the half group with NOOP (the packed pair
`encodeOut FLUSH_DICTIONARY NOOP`), resets the dictionary to the 256 literals,
and restarts both before-flush counters at the current counts; when it does
not, nothing further is emitted and dictionary and counters are untouched. -/
theorem c7_flush_heuristic (c : Compressor) (b : Nat) (r w r0 w0 : Nat)
    (hmw : (missOrMatch c b).1.write_state = none) :
    ((missOrMatch c b).1.dict.length > 4000 ∧
        compressionRatioTrunc (r + 1 - r0) (w + (missOrMatch c b).2.length - w0) > 200 →
      compressStep c b r w r0 w0 =
        ({ (missOrMatch c b).1 with dict := initEncDict, write_state := none },
          (missOrMatch c b).2 ++ encodeOut FLUSH_DICTIONARY NOOP, r + 1,
          w + (missOrMatch c b).2.length + 3, r + 1,
          w + (missOrMatch c b).2.length + 3)) ∧
    (¬((missOrMatch c b).1.dict.length > 4000 ∧
        compressionRatioTrunc (r + 1 - r0) (w + (missOrMatch c b).2.length - w0) > 200) →
      compressStep c b r w r0 w0 =
        ((missOrMatch c b).1, (missOrMatch c b).2, r + 1,
          w + (missOrMatch c b).2.length, r0, w0)) := by
  constructor
  · intro hcond
    simp only [compressStep]
    rw [flushPhase_yes (missOrMatch c b).1 (r + 1) (w + (missOrMatch c b).2.length) r0 w0
      hmw hcond]
    simp [encodeOut_length]
  · intro hcond
    simp only [compressStep]
    rw [flushPhase_no (missOrMatch c b).1 (r + 1) (w + (missOrMatch c b).2.length) r0 w0 hcond]
    simp

/-- Witness for C7 at the fresh compressor and byte 5 (condition false: the
dictionary holds only 256 entries, so no flush group is emitted). -/
theorem c7_flush_heuristic_witness :
    (missOrMatch Compressor.init 5).1.write_state = none ∧
      ¬((missOrMatch Compressor.init 5).1.dict.length > 4000 ∧
        compressionRatioTrunc (0 + 1 - 0) (0 + (missOrMatch Compressor.init 5).2.length - 0) > 200) ∧
      compressStep Compressor.init 5 0 0 0 0 =
        ((missOrMatch Compressor.init 5).1, (missOrMatch Compressor.init 5).2, 0 + 1,
          0 + (missOrMatch Compressor.init 5).2.length, 0, 0) :=
  ⟨by decide, by decide,
    (c7_flush_heuristic Compressor.init 5 0 0 0 0 (by decide)).2 (by decide)⟩

end LZW
